import Mathlib

/-!
# meta-package-manager: verification of the core spec claims

Shallow embedding of the repository's core pieces:

* the `Linuxbrew.cli_path` resolution from
  `meta_package_manager/managers/linuxbrew.py` (the only non-test source
  file present), together with a model of the POSIX filesystem facts it
  consults (`shutil.which` with `os.F_OK`, `os.path` predicates and
  `pathlib.Path.is_file`);
* the version tokenization engine (`TokenizedString`), the manager
  registry/pool with its `select` filter, the restore replay and the
  optional-capability contract.  Those modules are not part of the visible
  sources (only their tests are), so they are modelled from the spec and
  each such definition says so in its doc comment.

Strings are kept as Lean `String`s; Python's `":".join` / `.split(":")`
pair is embedded by explicit character-level functions so that their
round-trip behaviour is provable.
-/

namespace MPM

/-! ## Filesystem model

A path maps to an `FSEntry` describing what `os.path` sees there.  All the
predicates the code uses (`os.path.exists`, `os.path.isdir`,
`Path.is_file`) follow symlinks, so the entry records the kind of the
object the path finally designates (`followed`), whether the path itself
is a symbolic link (`isSymlink`), and the fully resolved target path
(`target`).  The resolution code never consults `target`: that is exactly
the "do not follow symlinks" requirement of the spec, and is proved below.
-/

/-- Kind of the object a path designates once every symlink is followed.
A broken symlink or an absent path is `missing`. -/
inductive FollowKind where
  | regular
  | directory
  | other
  | missing
deriving DecidableEq, Repr

/-- Filesystem facts about one path. -/
structure FSEntry where
  isSymlink : Bool := false
  followed : FollowKind := FollowKind.missing
  target : String := ""
deriving DecidableEq, Repr

/-- A filesystem: finitely many paths with interesting entries, every
other path absent. -/
def FS := List (String × FSEntry)

/-- Entry of an absent path. -/
def FSEntry.absent : FSEntry := {}

/-- Look up the entry recorded for a path (absent when unrecorded). -/
def stat (fs : FS) (p : String) : FSEntry :=
  match fs.find? (fun e => e.1 == p) with
  | some e => e.2
  | none => FSEntry.absent

/-- Model of `os.path.exists` (follows symlinks). -/
def path_exists (fs : FS) (p : String) : Bool :=
  (stat fs p).followed != FollowKind.missing

/-- Model of `os.path.isdir` (follows symlinks). -/
def path_isdir (fs : FS) (p : String) : Bool :=
  (stat fs p).followed == FollowKind.directory

/-- Model of `pathlib.Path.is_file`: true for a regular file or a symlink
to one (symlinks are followed by the check, not by the returned path). -/
def path_is_file (fs : FS) (p : String) : Bool :=
  (stat fs p).followed == FollowKind.regular

/-! ## Python string plumbing: `":".join` and `.split(":")` -/

/-- Character-level model of Python `str.split(":")`: always returns at
least one (possibly empty) piece. -/
def splitColonChars : List Char → List (List Char)
  | [] => [[]]
  | c :: cs =>
    if c = ':' then [] :: splitColonChars cs
    else
      match splitColonChars cs with
      | [] => [[c]]
      | h :: t => (c :: h) :: t

/-- Character-level model of Python `":".join`. -/
def joinColonChars : List (List Char) → List Char
  | [] => []
  | [x] => x
  | x :: xs => x ++ ':' :: joinColonChars xs

/-- Model of `str.split(":")` on `String`s. -/
def splitColon (s : String) : List String :=
  (splitColonChars s.data).map (fun cs => ⟨cs⟩)

/-- Model of `":".join` on `String`s. -/
def joinColon (l : List String) : String :=
  ⟨joinColonChars (l.map String.data)⟩

/-! ## `os.path` path algebra -/

/-- Model of `os.path.join(d, f)` for a relative basename `f`. -/
def pathJoin (d f : String) : String :=
  if d.data = [] then f
  else if d.data.getLast? = some '/' then ⟨d.data ++ f.data⟩
  else ⟨d.data ++ '/' :: f.data⟩

/-- Whether a POSIX path is absolute. -/
def isAbsolute (p : String) : Bool :=
  match p.data with
  | [] => false
  | c :: _ => c = '/'

/-- Model of `Path.cwd() / Path(p)`: an absolute `p` is kept unchanged,
a relative one is anchored at the working directory. -/
def cwdJoin (cwd p : String) : String :=
  if isAbsolute p then p else pathJoin cwd p

/-- Whether `os.path.dirname(cmd)` is non-empty, i.e. `cmd` contains a
path separator. -/
def hasDirname (cmd : String) : Bool :=
  cmd.data.contains '/'

/-! ## `shutil.which` with `mode=os.F_OK` -/

/-- The `_access_check` of `shutil.which` under `os.F_OK`: the candidate
exists (so `os.access(..., F_OK)` holds) and is not a directory. -/
def accessCheckFOK (fs : FS) (p : String) : Bool :=
  path_exists fs p && !path_isdir fs p

/-- Directory loop of `shutil.which`: visit the search directories in
order, skipping duplicates already seen, and return the first candidate
passing the access check. -/
def whichGo (fs : FS) (cmd : String) : List String → List String → Option String
  | [], _ => none
  | d :: rest, seen =>
    if seen.contains d then whichGo fs cmd rest seen
    else
      let cand := pathJoin d cmd
      if accessCheckFOK fs cand then some cand
      else whichGo fs cmd rest (d :: seen)

/-- Model of `shutil.which(cmd, mode=os.F_OK, path=path)` on POSIX: a
command containing a separator is checked directly, otherwise the path
string is split on `:` and the directories searched in order. -/
def whichFOK (fs : FS) (cmd : String) (path : String) : Option String :=
  if hasDirname cmd then
    if accessCheckFOK fs cmd then some cmd else none
  else
    whichGo fs cmd (splitColon path) []

end MPM

namespace Linuxbrew

open MPM

/-- `Linuxbrew.cli_path` resolution from `managers/linuxbrew.py`.

The environment is passed explicitly: the filesystem facts, the
manager's `cli_search_path` list, the value of `os.getenv("PATH")`
(`none` when the variable is unset), the single candidate name
`cli_name` and the working directory.  A `PATH` that is unset makes the
`":".join(self.cli_search_path + [os.getenv("PATH")])` expression raise
`TypeError`, which the embedding returns as an `Except.error`. -/
def cli_path (fs : FS) (cli_search_path : List String) (pathVar : Option String)
    (cli_name : String) (cwd : String) : Except String (Option String) :=
  match pathVar with
  | none => Except.error "TypeError"
  | some pathVal =>
    let env_path := joinColon (cli_search_path ++ [pathVal])
    match whichFOK fs cli_name env_path with
    | none => Except.ok none
    | some p =>
      let found := cwdJoin cwd p
      if path_is_file fs found then Except.ok (some found) else Except.ok none

/-- Cache cell of the `cachedproperty` decorating `cli_path`. -/
structure CliPathCache where
  cached : Option (Option String) := none
deriving DecidableEq, Repr

/-- One access to the `cachedproperty`: an already-cached value is
returned unchanged; otherwise the property body runs and its result is
cached (an exception leaves the cache empty). -/
def cli_path_cached (fs : FS) (sp : List String) (pathVar : Option String)
    (cli_name : String) (cwd : String) (st : CliPathCache) :
    Except String (Option String) × CliPathCache :=
  match st.cached with
  | some v => (Except.ok v, st)
  | none =>
    match cli_path fs sp pathVar cli_name cwd with
    | Except.ok v => (Except.ok v, ⟨some v⟩)
    | Except.error e => (Except.error e, st)

end Linuxbrew

namespace MPM

/-- Search procedure in the spec's words: walk the directories in order
(the extra search directories first, then the process `PATH`), and inside
each directory try the candidate executable names in `cli_names` order;
return the first candidate that exists (and is not a directory). -/
def specFirstExistingMatch (fs : FS) (dirs : List String) (names : List String) :
    Option String :=
  dirs.findSome? fun d =>
    names.findSome? fun n =>
      let cand := pathJoin d n
      if accessCheckFOK fs cand then some cand else none

/-- Rewrite the symlink-resolved targets recorded in a filesystem while
leaving every other fact unchanged.  The resolution code is proved
insensitive to this, which is the precise content of "checks the file
type without resolving symbolic links". -/
def retarget (f : String → String) (fs : FS) : FS :=
  fs.map (fun e => (e.1, { e.2 with target := f e.2.target }))

end MPM

/-! ## Concrete environments used to witness the `cli_path` claims -/

/-- Filesystem witnessing claim C1: the Homebrew binary present in the
extra search directory. -/
def fsC1 : MPM.FS :=
  [("/home/linuxbrew/.linuxbrew/bin/brew", { followed := MPM.FollowKind.regular })]

/-- Extra search directories witnessing claim C1. -/
def spC1 : List String := ["/home/linuxbrew/.linuxbrew/bin"]

/-- Filesystem witnessing claim C2: the found candidate is itself a
symlink to a regular file elsewhere. -/
def fsC2 : MPM.FS :=
  [("/home/linuxbrew/.linuxbrew/bin/brew",
    { isSymlink := true, followed := MPM.FollowKind.regular,
      target := "/home/linuxbrew/.linuxbrew/Homebrew/bin/brew" })]

/-- Extra search directories witnessing claim C2. -/
def spC2 : List String := ["/home/linuxbrew/.linuxbrew/bin"]

namespace MPM

/-! ## Version tokenization (`TokenizedString`)

The version engine (`meta_package_manager/version.py`) is not among the
visible sources — only its tests are — so it is modelled from the spec:
a version string is split into alternating maximal runs of digit /
non-digit-non-separator characters, separator runs are discarded, numeric
segments are compared by integer value (leading zeros insignificant), and
the canonical rendering joins segments with a single `.`. -/

/-- Modelled from the spec: the separator characters (`.`, `-`, `_`,
whitespace) delimit segments but are not stored. -/
def isSepChar (c : Char) : Bool :=
  c = '.' || c = '-' || c = '_' || c.isWhitespace

/-- A character that belongs to an alphabetic segment: neither a
separator nor a digit. -/
def isWordChar (c : Char) : Bool :=
  !isSepChar c && !c.isDigit

/-- A version segment: a numeric run held by value, or an alphabetic run
held by its characters. -/
inductive Segment where
  | num (n : Nat)
  | alpha (s : List Char)
deriving DecidableEq, Repr

/-- Decimal value of a digit character. -/
def digitVal (c : Char) : Nat := c.toNat - 48

/-- Modelled from the spec: the `parse` scanner.  It walks the characters
once, keeping the currently open run (`cur`); a separator closes the run,
a digit extends a numeric run or opens one, any other character extends
an alphabetic run or opens one.  Parsing never fails. -/
def tokGo : List Char → Option Segment → List Segment
  | [], cur => cur.toList
  | c :: cs, cur =>
    if isSepChar c then cur.toList ++ tokGo cs none
    else if c.isDigit then
      match cur with
      | some (Segment.num n) => tokGo cs (some (Segment.num (10 * n + digitVal c)))
      | some (Segment.alpha w) =>
        Segment.alpha w :: tokGo cs (some (Segment.num (digitVal c)))
      | none => tokGo cs (some (Segment.num (digitVal c)))
    else
      match cur with
      | some (Segment.alpha w) => tokGo cs (some (Segment.alpha (w ++ [c])))
      | some (Segment.num n) => Segment.num n :: tokGo cs (some (Segment.alpha [c]))
      | none => tokGo cs (some (Segment.alpha [c]))

/-- Tokenize a character list. -/
def tokenizeChars (cs : List Char) : List Segment := tokGo cs none

/-- Modelled from the spec: `parse(raw)`; any string, including the empty
one, yields a valid token. -/
def tokenize (s : String) : List Segment := tokenizeChars s.data

/-- Decimal digits of `n`, most significant first, computed with `fuel`
division steps. -/
def decChars : Nat → Nat → List Char
  | 0, _ => []
  | fuel + 1, n =>
    if n = 0 then [] else decChars fuel (n / 10) ++ [Char.ofNat (48 + n % 10)]

/-- Canonical decimal rendering of a numeric segment's value. -/
def renderNum (n : Nat) : List Char :=
  if n = 0 then ['0'] else decChars n n

/-- Canonical rendering of one segment. -/
def renderSeg : Segment → List Char
  | Segment.num n => renderNum n
  | Segment.alpha s => s

/-- Python `".".join` at character level. -/
def joinDot : List (List Char) → List Char
  | [] => []
  | [x] => x
  | x :: xs => x ++ '.' :: joinDot xs

/-- Canonical rendering of a token: segments joined by a single `.`. -/
def tokStringChars (t : List Segment) : List Char := joinDot (t.map renderSeg)

/-- Modelled from the spec: `to_string(token)`, the canonical rendering. -/
def tokString (t : List Segment) : String := ⟨tokStringChars t⟩

/-- Value of a run of digit characters (leading zeros insignificant). -/
def natOfDigitChars (cs : List Char) : Nat :=
  cs.foldl (fun a c => 10 * a + digitVal c) 0

/-- Well-formedness of a segment as produced by the scanner: alphabetic
runs are nonempty and hold only word characters. -/
def SegWF : Segment → Prop
  | Segment.num _ => True
  | Segment.alpha s => s ≠ [] ∧ ∀ c ∈ s, isWordChar c = true

/-- Well-formedness of the scanner's open run. -/
def CurWF : Option Segment → Prop
  | none => True
  | some seg => SegWF seg

/-- Strings that are canonical renderings of purely numeric tokens:
nonempty decimal numerals without leading zeros, joined by single dots.
Every manager requirement string has this shape. -/
def CanonicalNumeric (s : String) : Prop :=
  ∃ ns : List Nat, s = tokString (ns.map Segment.num)

/-! ## Manager registry (pool), selection, restore, capability contract

The registry, the CLI `select` filter, the restore replay and the base
capability contract live in modules that are not among the visible
sources (only their tests are); they are modelled from the spec. -/

/-- A catalogued manager: its identifier and whether it is a virtual
variant (held in the registry but excluded from the managers report). -/
structure Manager where
  id : String
  virtual : Bool
deriving DecidableEq, Repr

/-- Modelled from the spec: the fixed catalogue built at process start,
one instance per ecosystem identifier, in ascending identifier order;
`linuxbrew` is the virtual Linux-hosted variant of `brew`. -/
def catalogue : List Manager :=
  [⟨"apm", false⟩, ⟨"apt", false⟩, ⟨"brew", false⟩, ⟨"cask", false⟩,
   ⟨"composer", false⟩, ⟨"flatpak", false⟩, ⟨"gem", false⟩,
   ⟨"linuxbrew", true⟩, ⟨"mas", false⟩, ⟨"npm", false⟩, ⟨"opkg", false⟩,
   ⟨"pip2", false⟩, ⟨"pip3", false⟩, ⟨"yarn", false⟩]

/-- The fixed identifier catalogue (the tests' `MANAGER_IDS`). -/
def MANAGER_IDS : List String := catalogue.map Manager.id

/-- Cache cell of the memoized `pool()`. -/
structure PoolCache where
  cached : Option (List Manager) := none
deriving DecidableEq, Repr

/-- Modelled from the spec: `pool()` builds the full mapping once and
memoizes it; a later call returns the cached instance set unchanged. -/
def pool (st : PoolCache) : List Manager × PoolCache :=
  match st.cached with
  | some v => (v, st)
  | none => (catalogue, ⟨some catalogue⟩)

/-- Modelled from the spec: `select(include_ids, exclude_ids)` — a
non-empty include list restricts the pool to exactly those identifiers
(set semantics); then every identifier of the exclude list is removed,
so exclude wins over include; unknown identifiers are ignored. -/
def select (managers : List Manager) (incl excl : List String) : List Manager :=
  let base :=
    if incl.isEmpty then managers
    else managers.filter (fun m => incl.contains m.id)
  base.filter (fun m => !excl.contains m.id)

/-- Modelled from the spec: the managers report carries one entry per
non-virtual manager of the selection, in selection order. -/
def managersReportIds (managers : List Manager) : List String :=
  (managers.filter (fun m => !m.virtual)).map Manager.id

/-- Strict ascending order on manager identifiers: lexicographic on the
identifier's characters (all identifiers are lowercase ASCII, so this is
the ordinary string order). -/
def idLt (a b : Manager) : Prop := a.id.data < b.id.data

instance (a b : Manager) : Decidable (idLt a b) :=
  inferInstanceAs (Decidable (a.id.data < b.id.data))

/-- Operating systems relevant to the catalogue. -/
inductive OSPlat where
  | linux
  | macos
deriving DecidableEq, Repr

/-- Modelled from the spec: `restore` walks the backup document's
sections in order; a section whose manager identifier is not in the
selected set is skipped silently (never an error), and each package
entry of a kept section issues exactly one install/upgrade action,
returned as (manager id, package id, version). -/
def restore (selected : List String)
    (doc : List (String × List (String × String))) :
    List (String × String × String) :=
  (doc.filter (fun sec => selected.contains sec.1)).flatMap
    (fun sec => sec.2.map (fun p => (sec.1, p.1, p.2)))

/-- Outcome of calling one manager operation, as the batch sees it. -/
inductive PyResult (α : Type) where
  | ok (val : α)
  | notImplementedError
deriving DecidableEq, Repr

/-- Modelled from the spec: a manager's optional capabilities; a `none`
field means the ecosystem tool has no equivalent operation. -/
structure Capabilities where
  syncArgs : Option (List String)
  cleanupArgs : Option (List String)
  upgradeArgs : Option (String → List String)
  upgradeAllArgs : Option (List String)

/-- Modelled from the spec: `sync()` refreshes repository metadata when
supported and silently no-ops when unsupported; either way it returns no
value and never signals an error. -/
def Capabilities.sync (c : Capabilities) : PyResult Unit :=
  match c.syncArgs with
  | some _ => PyResult.ok ()
  | none => PyResult.ok ()

/-- Modelled from the spec: `cleanup()` follows the same
no-op-if-unsupported policy as `sync`. -/
def Capabilities.cleanup (c : Capabilities) : PyResult Unit :=
  match c.cleanupArgs with
  | some _ => PyResult.ok ()
  | none => PyResult.ok ()

/-- Modelled from the spec: `upgrade_cli(id)` produces the literal
argument list when supported and signals `NotImplementedError` when
the capability is unsupported. -/
def Capabilities.upgrade_cli (c : Capabilities) (pkg : String) :
    PyResult (List String) :=
  match c.upgradeArgs with
  | some f => PyResult.ok (f pkg)
  | none => PyResult.notImplementedError

/-- Modelled from the spec: `upgrade_all_cli()` behaves like
`upgrade_cli` for the upgrade-everything command line. -/
def Capabilities.upgrade_all_cli (c : Capabilities) : PyResult (List String) :=
  match c.upgradeAllArgs with
  | some args => PyResult.ok args
  | none => PyResult.notImplementedError

end MPM

/-- Capabilities witnessing claim C8: every optional capability present. -/
def capsFull : MPM.Capabilities :=
  ⟨some ["update"], some ["cleanup"], some (fun pkg => ["upgrade", pkg]),
   some ["upgrade"]⟩

/-- Capabilities witnessing claim C8: no optional capability present. -/
def capsBare : MPM.Capabilities := ⟨none, none, none, none⟩

namespace Linuxbrew

/-- From `managers/linuxbrew.py`: `platforms = frozenset([LINUX])`. -/
def platforms : List MPM.OSPlat := [MPM.OSPlat.linux]

/-- From `managers/linuxbrew.py`: `name = "Linuxbrew Formulae"`. -/
def displayName : String := "Linuxbrew Formulae"

end Linuxbrew

namespace MPM

/-! ## String plumbing lemmas -/

theorem mk_data (s : String) : (⟨s.data⟩ : String) = s := rfl

theorem splitColonChars_colonfree_append (x r : List Char) (hx : ':' ∉ x) :
    splitColonChars (x ++ ':' :: r) = x :: splitColonChars r := by
  induction x with
  | nil => simp [splitColonChars]
  | cons c cs ih =>
    have hc : ¬ c = ':' := fun h => hx (by simp [h])
    have hcs : ':' ∉ cs := fun h => hx (List.mem_cons_of_mem _ h)
    simp [splitColonChars, hc, ih hcs]

theorem joinColonChars_cons_cons (x y : List Char) (t : List (List Char)) :
    joinColonChars (x :: y :: t) = x ++ ':' :: joinColonChars (y :: t) := rfl

theorem splitJoinChars (ls : List (List Char)) (z : List Char)
    (h : ∀ x ∈ ls, ':' ∉ x) :
    splitColonChars (joinColonChars (ls ++ [z])) = ls ++ splitColonChars z := by
  induction ls with
  | nil => rfl
  | cons x ls ih =>
    cases hls : ls ++ [z] with
    | nil => simp at hls
    | cons y t =>
      rw [List.cons_append, hls, joinColonChars_cons_cons,
        splitColonChars_colonfree_append x _ (h x (by simp)), ← hls,
        ih (fun w hw => h w (by simp [hw])), List.cons_append]

theorem splitColon_joinColon (sp : List String) (pathVal : String)
    (hsp : ∀ d ∈ sp, ':' ∉ d.data) :
    splitColon (joinColon (sp ++ [pathVal])) = sp ++ splitColon pathVal := by
  have h : ∀ x ∈ sp.map String.data, ':' ∉ x := by
    intro x hx
    rcases List.mem_map.mp hx with ⟨d, hd, rfl⟩
    exact hsp d hd
  show (splitColonChars (joinColonChars ((sp ++ [pathVal]).map String.data))).map
      (fun cs => (⟨cs⟩ : String)) = sp ++ splitColon pathVal
  rw [List.map_append]
  simp only [List.map_cons, List.map_nil]
  rw [splitJoinChars (sp.map String.data) pathVal.data h, List.map_append]
  simp [splitColon, List.map_map, Function.comp_def, mk_data]

/-! ## `shutil.which` versus the spec's first-existing-match search -/

theorem whichGo_eq_findSome (fs : FS) (cmd : String) (dirs : List String) :
    ∀ seen, (∀ d, seen.contains d = true → accessCheckFOK fs (pathJoin d cmd) = false) →
    whichGo fs cmd dirs seen =
      dirs.findSome? (fun d =>
        if accessCheckFOK fs (pathJoin d cmd) then some (pathJoin d cmd) else none) := by
  induction dirs with
  | nil => intro seen _; rfl
  | cons d rest ih =>
    intro seen hseen
    rw [List.findSome?_cons]
    cases hd : seen.contains d with
    | true =>
      have hmem : d ∈ seen := by simpa using hd
      have hacc := hseen d hd
      simp [whichGo, hmem, hacc, ih seen hseen]
    | false =>
      have hmem : d ∉ seen := by simpa using hd
      cases hacc : accessCheckFOK fs (pathJoin d cmd) with
      | true => simp [whichGo, hmem, hacc]
      | false =>
        have hseen' : ∀ d', (d :: seen).contains d' = true →
            accessCheckFOK fs (pathJoin d' cmd) = false := by
          intro d' hd'
          simp only [List.contains_cons, Bool.or_eq_true, beq_iff_eq] at hd'
          rcases hd' with rfl | hd'
          · exact hacc
          · exact hseen d' hd'
        simp [whichGo, hmem, hacc, ih (d :: seen) hseen']

theorem specFirstExistingMatch_single (fs : FS) (dirs : List String) (n : String) :
    specFirstExistingMatch fs dirs [n] =
      dirs.findSome? (fun d =>
        if accessCheckFOK fs (pathJoin d n) then some (pathJoin d n) else none) := by
  unfold specFirstExistingMatch
  refine congrArg (fun f => dirs.findSome? f) (funext fun d => ?_)
  cases hacc : accessCheckFOK fs (pathJoin d n) <;>
    simp [List.findSome?_cons, hacc]

/-! ## Insensitivity of resolution to symlink targets -/

theorem stat_retarget_followed (f : String → String) (fs : FS) (p : String) :
    (stat (retarget f fs) p).followed = (stat fs p).followed := by
  induction fs with
  | nil => rfl
  | cons e rest ih =>
    cases hc : (e.1 == p) with
    | true => simp [stat, retarget, List.find?, hc]
    | false =>
      simpa [stat, retarget, List.find?, hc] using ih

theorem accessCheckFOK_retarget (f : String → String) (fs : FS) (p : String) :
    accessCheckFOK (retarget f fs) p = accessCheckFOK fs p := by
  simp [accessCheckFOK, path_exists, path_isdir, stat_retarget_followed]

theorem path_is_file_retarget (f : String → String) (fs : FS) (p : String) :
    path_is_file (retarget f fs) p = path_is_file fs p := by
  simp [path_is_file, stat_retarget_followed]

theorem whichGo_retarget (f : String → String) (fs : FS) (cmd : String) :
    ∀ dirs seen, whichGo (retarget f fs) cmd dirs seen = whichGo fs cmd dirs seen := by
  intro dirs
  induction dirs with
  | nil => intro seen; rfl
  | cons d rest ih =>
    intro seen
    simp [whichGo, accessCheckFOK_retarget, ih]

theorem whichFOK_retarget (f : String → String) (fs : FS) (cmd path : String) :
    whichFOK (retarget f fs) cmd path = whichFOK fs cmd path := by
  simp [whichFOK, accessCheckFOK_retarget, whichGo_retarget]

end MPM

section C9Claims

open MPM

/-- Claim C9: `Linuxbrew.cli_path` is total (returns a path or absent,
never raising) whenever the `PATH` environment variable is set, and when
`PATH` is unset the join of the search-path components raises a
`TypeError` instead of degrading to an absent result. -/
theorem C9_cli_path_total_only_with_PATH :
    (∀ fs sp name cwd pathVal,
      ∃ r, Linuxbrew.cli_path fs sp (some pathVal) name cwd = Except.ok r)
    ∧ (∀ fs sp name cwd,
      Linuxbrew.cli_path fs sp none name cwd = Except.error "TypeError") := by
  constructor
  · intro fs sp name cwd pathVal
    unfold Linuxbrew.cli_path
    cases h : whichFOK fs name (joinColon (sp ++ [pathVal])) with
    | none => exact ⟨none, by simp [h]⟩
    | some p =>
      by_cases hf : path_is_file fs (cwdJoin cwd p)
      · exact ⟨some (cwdJoin cwd p), by simp [h, hf]⟩
      · exact ⟨none, by simp [h, hf]⟩
  · intro fs sp name cwd
    rfl

end C9Claims

section C1Claims

open MPM

/-- Claim C1: for the Linuxbrew manager, `cli_path` is lazily resolved and
memoized (repeated access yields the same resolved value); resolution
searches the extra search directories first and then the process `PATH`,
returning the first existing match among the candidate executable names
in `cli_names` order (a single candidate, `cli_name`, for this manager);
if no candidate is found, `cli_path` is absent. -/
theorem C1_cli_path_memoized_search_order
    (fs : FS) (sp : List String) (pathVal name cwd : String)
    (hsp : ∀ d ∈ sp, ':' ∉ d.data) (hname : hasDirname name = false) :
    (∀ st, (Linuxbrew.cli_path_cached fs sp (some pathVal) name cwd
        ((Linuxbrew.cli_path_cached fs sp (some pathVal) name cwd st).2)).1 =
      (Linuxbrew.cli_path_cached fs sp (some pathVal) name cwd st).1)
    ∧ whichFOK fs name (joinColon (sp ++ [pathVal])) =
        specFirstExistingMatch fs (sp ++ splitColon pathVal) [name]
    ∧ (specFirstExistingMatch fs (sp ++ splitColon pathVal) [name] = none →
        Linuxbrew.cli_path fs sp (some pathVal) name cwd = Except.ok none)
    ∧ (∀ found, specFirstExistingMatch fs (sp ++ splitColon pathVal) [name] = some found →
        path_is_file fs (cwdJoin cwd found) = true →
        Linuxbrew.cli_path fs sp (some pathVal) name cwd =
          Except.ok (some (cwdJoin cwd found))) := by
  have hwhich : whichFOK fs name (joinColon (sp ++ [pathVal])) =
      specFirstExistingMatch fs (sp ++ splitColon pathVal) [name] := by
    unfold whichFOK
    rw [if_neg (by simp [hname])]
    rw [splitColon_joinColon sp pathVal hsp]
    rw [whichGo_eq_findSome fs name (sp ++ splitColon pathVal) []
      (by intro d hd; simp [List.contains] at hd)]
    rw [specFirstExistingMatch_single]
  refine ⟨?_, hwhich, ?_, ?_⟩
  · intro st
    cases hst : st.cached with
    | some v => simp [Linuxbrew.cli_path_cached, hst]
    | none =>
      cases hr : Linuxbrew.cli_path fs sp (some pathVal) name cwd with
      | ok v => simp [Linuxbrew.cli_path_cached, hst, hr]
      | error e => simp [Linuxbrew.cli_path_cached, hst, hr]
  · intro h
    simp [Linuxbrew.cli_path, hwhich, h]
  · intro found hfound hfile
    simp [Linuxbrew.cli_path, hwhich, hfound, hfile]

/-- Witness for claim C1: on a concrete filesystem with the Homebrew
binary in the extra search directory, resolution finds it there even
though `PATH` is set, and returns exactly that path. -/
theorem C1_witness :
    Linuxbrew.cli_path fsC1 spC1 (some "/usr/bin:/bin") "brew" "/root" =
      Except.ok (some "/home/linuxbrew/.linuxbrew/bin/brew") :=
  (C1_cli_path_memoized_search_order fsC1 spC1 "/usr/bin:/bin" "brew" "/root"
    (by decide) (by decide)).2.2.2 "/home/linuxbrew/.linuxbrew/bin/brew"
    (by decide) (by decide)

end C1Claims

section C2Claims

open MPM

/-- Claim C2: `Linuxbrew.cli_path` checks the file type of the found
candidate without resolving symbolic links in the returned path: the
returned path is the normalized found path (never its symlink-resolved
target, to which the whole resolution is insensitive), while still
confirming the candidate is a regular file or a symlink to one; a
candidate that is neither yields an absent `cli_path`. -/
theorem C2_cli_path_symlink_check
    (fs : FS) (sp : List String) (pathVal name cwd : String) :
    (∀ p, Linuxbrew.cli_path fs sp (some pathVal) name cwd = Except.ok (some p) →
      ∃ found, whichFOK fs name (joinColon (sp ++ [pathVal])) = some found ∧
        p = cwdJoin cwd found ∧ (stat fs p).followed = FollowKind.regular)
    ∧ (∀ found, whichFOK fs name (joinColon (sp ++ [pathVal])) = some found →
        (stat fs (cwdJoin cwd found)).followed ≠ FollowKind.regular →
        Linuxbrew.cli_path fs sp (some pathVal) name cwd = Except.ok none)
    ∧ (∀ f, Linuxbrew.cli_path (retarget f fs) sp (some pathVal) name cwd =
        Linuxbrew.cli_path fs sp (some pathVal) name cwd) := by
  refine ⟨?_, ?_, ?_⟩
  · intro p h
    cases hw : whichFOK fs name (joinColon (sp ++ [pathVal])) with
    | none => simp [Linuxbrew.cli_path, hw] at h
    | some q =>
      cases hf : path_is_file fs (cwdJoin cwd q) with
      | false => simp [Linuxbrew.cli_path, hw, hf] at h
      | true =>
        simp only [Linuxbrew.cli_path, hw, hf, if_true] at h
        have hp : p = cwdJoin cwd q := by
          simpa using h.symm
        refine ⟨q, rfl, hp, ?_⟩
        rw [hp]
        have := hf
        simpa [path_is_file] using this
  · intro found hw hnot
    have hf : path_is_file fs (cwdJoin cwd found) = false := by
      simp [path_is_file, hnot]
    simp [Linuxbrew.cli_path, hw, hf]
  · intro f
    simp [Linuxbrew.cli_path, whichFOK_retarget, path_is_file_retarget]

/-- Witness for claim C2: resolution on a filesystem whose found
candidate is itself a symlink to a regular file returns the symlink path
itself, which differs from the symlink-resolved target. -/
theorem C2_witness :
    (∃ found,
      MPM.whichFOK fsC2 "brew" (MPM.joinColon (spC2 ++ ["/usr/bin"])) = some found ∧
      "/home/linuxbrew/.linuxbrew/bin/brew" = MPM.cwdJoin "/root" found ∧
      (MPM.stat fsC2 "/home/linuxbrew/.linuxbrew/bin/brew").followed =
        MPM.FollowKind.regular) ∧
    (MPM.stat fsC2 "/home/linuxbrew/.linuxbrew/bin/brew").isSymlink = true ∧
    (MPM.stat fsC2 "/home/linuxbrew/.linuxbrew/bin/brew").target ≠
      "/home/linuxbrew/.linuxbrew/bin/brew" :=
  ⟨(C2_cli_path_symlink_check fsC2 spC2 "/usr/bin" "brew" "/root").1
      "/home/linuxbrew/.linuxbrew/bin/brew" (by rfl),
    by decide, by decide⟩

end C2Claims

namespace MPM

/-! ## Tokenization lemmas -/

theorem isWordChar_split {c : Char} (h : isWordChar c = true) :
    isSepChar c = false ∧ c.isDigit = false := by
  simp only [isWordChar, Bool.and_eq_true, Bool.not_eq_true'] at h
  exact h

theorem isWordChar_of (c : Char) (hs : isSepChar c = false) (hd : c.isDigit = false) :
    isWordChar c = true := by
  simp [isWordChar, hs, hd]

theorem digit_char_facts (d : Nat) (h : d < 10) :
    (Char.ofNat (48 + d)).isDigit = true ∧ isSepChar (Char.ofNat (48 + d)) = false ∧
      digitVal (Char.ofNat (48 + d)) = d := by
  interval_cases d <;> exact ⟨by decide, by decide, by decide⟩

theorem decChars_zero (fuel : Nat) : decChars fuel 0 = [] := by
  cases fuel <;> simp [decChars]

theorem decChars_spec : ∀ fuel n, n ≠ 0 → n ≤ fuel →
    decChars fuel n ≠ [] ∧
    (∀ c ∈ decChars fuel n, c.isDigit = true ∧ isSepChar c = false) ∧
    natOfDigitChars (decChars fuel n) = n := by
  intro fuel
  induction fuel with
  | zero => intro n h0 hle; omega
  | succ fuel ih =>
    intro n h0 hle
    have hmod : n % 10 < 10 := Nat.mod_lt _ (by norm_num)
    obtain ⟨hdig, hsep, hval⟩ := digit_char_facts (n % 10) hmod
    have hstep : decChars (fuel + 1) n = decChars fuel (n / 10) ++ [Char.ofNat (48 + n % 10)] := by
      simp [decChars, h0]
    by_cases h10 : n < 10
    · have hdiv : n / 10 = 0 := Nat.div_eq_of_lt h10
      have hmodn : n % 10 = n := Nat.mod_eq_of_lt h10
      rw [hstep, hdiv, decChars_zero]
      refine ⟨by simp, ?_, ?_⟩
      · intro c hc
        rcases List.mem_singleton.mp (by simpa using hc) with rfl
        exact ⟨hdig, hsep⟩
      · rw [hmodn] at hval
        simp [natOfDigitChars, hmodn, hval]
    · push_neg at h10
      have hdiv0 : n / 10 ≠ 0 := by omega
      have hdivle : n / 10 ≤ fuel := by omega
      obtain ⟨hne, hmem, hv⟩ := ih (n / 10) hdiv0 hdivle
      rw [hstep]
      refine ⟨by simp, ?_, ?_⟩
      · intro c hc
        rcases List.mem_append.mp hc with hc | hc
        · exact hmem c hc
        · rcases List.mem_singleton.mp hc with rfl
          exact ⟨hdig, hsep⟩
      · unfold natOfDigitChars at hv ⊢
        rw [List.foldl_append, hv]
        simp [hval]
        omega

theorem renderNum_spec (n : Nat) :
    renderNum n ≠ [] ∧
    (∀ c ∈ renderNum n, c.isDigit = true ∧ isSepChar c = false) ∧
    natOfDigitChars (renderNum n) = n := by
  by_cases h0 : n = 0
  · subst h0
    refine ⟨by decide, ?_, by decide⟩
    intro c hc
    rcases List.mem_singleton.mp (by simpa [renderNum] using hc) with rfl
    exact ⟨by decide, by decide⟩
  · simpa [renderNum, h0] using decChars_spec n n h0 le_rfl

theorem tokGo_digits (ds : List Char)
    (hds : ∀ c ∈ ds, c.isDigit = true ∧ isSepChar c = false) :
    ∀ rest n, tokGo (ds ++ rest) (some (Segment.num n)) =
      tokGo rest (some (Segment.num (ds.foldl (fun a c => 10 * a + digitVal c) n))) := by
  induction ds with
  | nil => intro rest n; rfl
  | cons c cs ih =>
    intro rest n
    obtain ⟨hd, hs⟩ := hds c (by simp)
    have hcs : ∀ x ∈ cs, x.isDigit = true ∧ isSepChar x = false :=
      fun x hx => hds x (by simp [hx])
    rw [List.cons_append,
      show tokGo (c :: (cs ++ rest)) (some (Segment.num n)) =
        tokGo (cs ++ rest) (some (Segment.num (10 * n + digitVal c))) from by
        simp [tokGo, hs, hd],
      ih hcs rest (10 * n + digitVal c), List.foldl_cons]

theorem tokGo_words (ws : List Char) (hws : ∀ c ∈ ws, isWordChar c = true) :
    ∀ rest w, tokGo (ws ++ rest) (some (Segment.alpha w)) =
      tokGo rest (some (Segment.alpha (w ++ ws))) := by
  induction ws with
  | nil => intro rest w; simp
  | cons c cs ih =>
    intro rest w
    obtain ⟨hs, hd⟩ := isWordChar_split (hws c (by simp))
    have hcs : ∀ x ∈ cs, isWordChar x = true := fun x hx => hws x (by simp [hx])
    rw [List.cons_append,
      show tokGo (c :: (cs ++ rest)) (some (Segment.alpha w)) =
        tokGo (cs ++ rest) (some (Segment.alpha (w ++ [c]))) from by
        simp [tokGo, hs, hd],
      ih hcs rest (w ++ [c])]
    simp

theorem tokGo_renderSeg (seg : Segment) (hseg : SegWF seg) (rest : List Char) :
    tokGo (renderSeg seg ++ rest) none = tokGo rest (some seg) := by
  cases seg with
  | num n =>
    obtain ⟨hne, hmem, hval⟩ := renderNum_spec n
    simp only [renderSeg]
    cases hr : renderNum n with
    | nil => exact absurd hr hne
    | cons c cs =>
      rw [hr] at hmem hval
      obtain ⟨hd, hs⟩ := hmem c (by simp)
      have hcs : ∀ x ∈ cs, x.isDigit = true ∧ isSepChar x = false :=
        fun x hx => hmem x (by simp [hx])
      have heq : List.foldl (fun a c => 10 * a + digitVal c) (digitVal c) cs = n := by
        simpa [natOfDigitChars, List.foldl_cons] using hval
      rw [List.cons_append,
        show tokGo (c :: (cs ++ rest)) none =
          tokGo (cs ++ rest) (some (Segment.num (digitVal c))) from by
          simp [tokGo, hs, hd],
        tokGo_digits cs hcs rest (digitVal c), heq]
  | alpha w =>
    obtain ⟨hne, hmem⟩ := hseg
    simp only [renderSeg]
    cases w with
    | nil => exact absurd rfl hne
    | cons c cs =>
      obtain ⟨hs, hd⟩ := isWordChar_split (hmem c (by simp))
      have hcs : ∀ x ∈ cs, isWordChar x = true := fun x hx => hmem x (by simp [hx])
      rw [List.cons_append,
        show tokGo (c :: (cs ++ rest)) none =
          tokGo (cs ++ rest) (some (Segment.alpha [c])) from by
          simp [tokGo, hs, hd],
        tokGo_words cs hcs rest [c]]
      rfl

theorem CurWF_none : CurWF none := trivial

theorem CurWF_num (n : Nat) : CurWF (some (Segment.num n)) := trivial

theorem CurWF_alpha {w : List Char} (h : SegWF (Segment.alpha w)) :
    CurWF (some (Segment.alpha w)) := h

theorem tokGo_WF : ∀ (cs : List Char) (cur : Option Segment), CurWF cur →
    ∀ seg ∈ tokGo cs cur, SegWF seg := by
  intro cs
  induction cs with
  | nil =>
    intro cur hcur seg hseg
    cases cur with
    | none => simp [tokGo] at hseg
    | some s =>
      simp [tokGo] at hseg
      subst hseg
      exact hcur
  | cons c cs ih =>
    intro cur hcur seg hseg
    by_cases hsep : isSepChar c = true
    · rw [show tokGo (c :: cs) cur = cur.toList ++ tokGo cs none from by
        simp [tokGo, hsep]] at hseg
      rcases List.mem_append.mp hseg with h | h
      · cases cur with
        | none => simp at h
        | some s =>
          simp at h
          subst h
          exact hcur
      · exact ih none trivial seg h
    · have hs' : isSepChar c = false := by simpa using hsep
      by_cases hdig : c.isDigit = true
      · cases cur with
        | none =>
          rw [show tokGo (c :: cs) none = tokGo cs (some (Segment.num (digitVal c))) from by
            simp [tokGo, hs', hdig]] at hseg
          exact ih _ (CurWF_num _) seg hseg
        | some s =>
          cases s with
          | num n =>
            rw [show tokGo (c :: cs) (some (Segment.num n)) =
                tokGo cs (some (Segment.num (10 * n + digitVal c))) from by
              simp [tokGo, hs', hdig]] at hseg
            exact ih _ (CurWF_num _) seg hseg
          | alpha w =>
            rw [show tokGo (c :: cs) (some (Segment.alpha w)) =
                Segment.alpha w :: tokGo cs (some (Segment.num (digitVal c))) from by
              simp [tokGo, hs', hdig]] at hseg
            rcases List.mem_cons.mp hseg with rfl | h
            · exact hcur
            · exact ih _ (CurWF_num _) seg h
      · have hd' : c.isDigit = false := by simpa using hdig
        have hword : isWordChar c = true := isWordChar_of c hs' hd'
        have hsing : SegWF (Segment.alpha [c]) := by
          refine ⟨by simp, ?_⟩
          intro x hx
          rcases List.mem_singleton.mp hx with rfl
          exact hword
        cases cur with
        | none =>
          rw [show tokGo (c :: cs) none = tokGo cs (some (Segment.alpha [c])) from by
            simp [tokGo, hs', hd']] at hseg
          exact ih _ (CurWF_alpha hsing) seg hseg
        | some s =>
          cases s with
          | alpha w =>
            rw [show tokGo (c :: cs) (some (Segment.alpha w)) =
                tokGo cs (some (Segment.alpha (w ++ [c]))) from by
              simp [tokGo, hs', hd']] at hseg
            obtain ⟨hne, hmemw⟩ := hcur
            refine ih _ (CurWF_alpha ⟨by simp, ?_⟩) seg hseg
            intro x hx
            rcases List.mem_append.mp hx with hx | hx
            · exact hmemw x hx
            · rcases List.mem_singleton.mp hx with rfl
              exact hword
          | num n =>
            rw [show tokGo (c :: cs) (some (Segment.num n)) =
                Segment.num n :: tokGo cs (some (Segment.alpha [c])) from by
              simp [tokGo, hs', hd']] at hseg
            rcases List.mem_cons.mp hseg with rfl | h
            · trivial
            · exact ih _ (CurWF_alpha hsing) seg h

theorem joinDot_cons_cons (x y : List Char) (t : List (List Char)) :
    joinDot (x :: y :: t) = x ++ '.' :: joinDot (y :: t) := rfl

theorem tokenizeChars_render : ∀ (t : List Segment), (∀ seg ∈ t, SegWF seg) →
    tokenizeChars (tokStringChars t) = t := by
  intro t
  induction t with
  | nil => intro _; rfl
  | cons seg t ih =>
    intro h
    have hseg : SegWF seg := h seg (by simp)
    have ht : ∀ s ∈ t, SegWF s := fun s hs => h s (by simp [hs])
    cases t with
    | nil =>
      show tokGo (joinDot [renderSeg seg]) none = [seg]
      rw [show joinDot [renderSeg seg] = renderSeg seg from rfl,
        show renderSeg seg = renderSeg seg ++ [] from by simp,
        tokGo_renderSeg seg hseg []]
      rfl
    | cons seg2 t2 =>
      show tokGo (joinDot (renderSeg seg :: renderSeg seg2 :: t2.map renderSeg)) none =
        seg :: seg2 :: t2
      rw [joinDot_cons_cons, tokGo_renderSeg seg hseg,
        show tokGo ('.' :: joinDot (renderSeg seg2 :: t2.map renderSeg)) (some seg) =
          seg :: tokGo (joinDot (renderSeg seg2 :: t2.map renderSeg)) none from by
          simp [tokGo, show isSepChar '.' = true from by decide]]
      have hrec := ih ht
      unfold tokenizeChars tokStringChars at hrec
      simp only [List.map_cons] at hrec
      rw [hrec]

end MPM

section C7Claims

open MPM

/-- Counterexample to claim C7 as stated: `"01"` consists of digits and
dots only, yet the canonical rendering of its parsed token is `"1"`, not
the original string (leading zeros are insignificant in the token). -/
theorem C7_counterexample :
    (∀ c ∈ "01".data, (c.isDigit || c = '.') = true) ∧
    tokString (tokenize "01") ≠ "01" :=
  ⟨by decide, by decide⟩

/-- Claim C7, amended: `parse(to_string(parse(s)))` is value-equal to
`parse(s)` for every string `s` including the empty one; and the
canonical rendering of a parsed requirement string equals the original
string exactly when that string is already in canonical numeric form
(decimal numerals without leading zeros joined by single dots) — not for
every digits-and-dots string, as `"01"` shows. -/
theorem C7_parse_tostring_roundtrip :
    (∀ s : String, tokenize (tokString (tokenize s)) = tokenize s)
    ∧ (∀ s : String, CanonicalNumeric s → tokString (tokenize s) = s) := by
  have hwf : ∀ s : String, ∀ seg ∈ tokenize s, SegWF seg :=
    fun s => tokGo_WF s.data none trivial
  constructor
  · intro s
    exact tokenizeChars_render (tokenize s) (hwf s)
  · rintro s ⟨ns, rfl⟩
    have hnum : ∀ seg ∈ ns.map Segment.num, SegWF seg := by
      intro seg hseg
      rcases List.mem_map.mp hseg with ⟨n, _, rfl⟩
      trivial
    have hrt : tokenize (tokString (ns.map Segment.num)) = ns.map Segment.num :=
      tokenizeChars_render _ hnum
    rw [hrt]

/-- Witness for claim C7: the round trip at `"1.0.0"`, a canonical
requirement string, reproduces both the token and the literal text. -/
theorem C7_witness :
    tokenize (tokString (tokenize "1.0.0")) = tokenize "1.0.0" ∧
    tokString (tokenize "1.0.0") = "1.0.0" :=
  ⟨C7_parse_tostring_roundtrip.1 "1.0.0",
   C7_parse_tostring_roundtrip.2 "1.0.0" ⟨[1, 0, 0], by decide⟩⟩

end C7Claims

section C3Claims

open MPM

/-- Claim C3: exclusion wins over inclusion for every identifier present
in both lists — no selected manager carries an excluded identifier;
`select(include=\x7b"apm"\x7d, exclude=\x7b"apm"\x7d)` is the empty selection and
`select(include=\x7b\x7d, exclude=\x7b"brew"\x7d)` is the full catalogue minus
`brew`. -/
theorem C3_select_exclusion_wins :
    (∀ (managers : List Manager) (incl excl : List String),
      (select managers incl excl).all (fun m => !excl.contains m.id) = true)
    ∧ select catalogue ["apm"] ["apm"] = []
    ∧ select catalogue [] ["brew"] = catalogue.filter (fun m => !(m.id == "brew")) := by
  refine ⟨?_, by decide, by decide⟩
  intro managers incl excl
  apply List.all_eq_true.mpr
  intro m hm
  have hm' : m ∈ List.filter (fun m => !excl.contains m.id)
      (if incl.isEmpty then managers
       else managers.filter (fun m => incl.contains m.id)) := hm
  exact (List.mem_filter.mp hm').2

end C3Claims

section C4Claims

open MPM

/-- Claim C4: the registry holds exactly one instance per catalogue
identifier; the mapping is built once and memoized, so a second access
returns the identical cached instance set and leaves the cache untouched;
the identifier set of the registry equals the fixed catalogue built at
process start. -/
theorem C4_pool_memoized_identity :
    MANAGER_IDS.Nodup
    ∧ (∀ st, pool (pool st).2 = pool st)
    ∧ (∀ st, ((pool st).2).cached = some (pool st).1)
    ∧ (pool {}).1 = catalogue
    ∧ (pool {}).1.map Manager.id = MANAGER_IDS := by
  refine ⟨by decide, ?_, ?_, rfl, rfl⟩
  · intro st
    cases hst : st.cached <;> simp [pool, hst]
  · intro st
    cases hst : st.cached <;> simp [pool, hst]

end C4Claims

section C5Claims

open MPM

/-- Claim C5: iteration over the registry and over every selection
produced by `select` is in ascending manager-identifier order. -/
theorem C5_iteration_ascending :
    (pool {}).1.Pairwise idLt
    ∧ ∀ incl excl, (select (pool {}).1 incl excl).Pairwise idLt := by
  have hcat : catalogue.Pairwise idLt := by decide
  refine ⟨hcat, ?_⟩
  intro incl excl
  have hsub : List.Sublist (select catalogue incl excl) catalogue := by
    unfold select
    cases h : incl.isEmpty
    · simp only [h, Bool.false_eq_true, if_false]
      exact (List.filter_sublist _).trans (List.filter_sublist _)
    · simp only [h, if_true]
      exact List.filter_sublist _
  exact hcat.sublist hsub

end C5Claims

section C6Claims

open MPM

/-- Claim C6: restore silently skips every backup section whose manager
identifier is outside the selected set and issues exactly one
install/upgrade action per remaining package entry: restoring
`\x7bnpm: \x7bpkgA: "2.2.2"\x7d, pip3: \x7bpkgB: "0.0.1"\x7d\x7d` under a selection
limited to `npm` issues exactly the one action `pkgA@2.2.2`, and a
section for an unknown manager identifier yields no action at all. -/
theorem C6_restore_skips_unselected :
    restore ["npm"] [("npm", [("pkgA", "2.2.2")]), ("pip3", [("pkgB", "0.0.1")])] =
      [("npm", "pkgA", "2.2.2")]
    ∧ restore MANAGER_IDS [("dummy_manager", [("fancy_package", "0.0.1")])] = []
    ∧ (∀ selected doc,
        (restore selected doc).all (fun a => selected.contains a.1) = true)
    ∧ (∀ selected doc, (restore selected doc).length =
        ((doc.filter (fun sec => selected.contains sec.1)).map
          (fun sec => sec.2.length)).sum) := by
  refine ⟨by decide, by decide, ?_, ?_⟩
  · intro selected doc
    apply List.all_eq_true.mpr
    intro a ha
    unfold restore at ha
    rcases List.mem_flatMap.mp ha with ⟨sec, hsec, hmem⟩
    have hsel := List.of_mem_filter hsec
    rcases List.mem_map.mp hmem with ⟨p, _, rfl⟩
    simpa using hsel
  · intro selected doc
    unfold restore
    rw [List.length_flatMap]
    simp [Function.comp_def]

end C6Claims

section C8Claims

open MPM

/-- Claim C8: `sync()` and `cleanup()` return no value and silently
no-op when the capability is unsupported — they never signal an error —
whereas `upgrade_cli` and `upgrade_all_cli` signal `NotImplementedError`
when unsupported and return an argument list when supported. -/
theorem C8_optional_capability_asymmetry :
    (∀ c : Capabilities, c.sync = PyResult.ok ())
    ∧ (∀ c : Capabilities, c.cleanup = PyResult.ok ())
    ∧ (∀ (c : Capabilities) (pkg : String), c.upgradeArgs = none →
        c.upgrade_cli pkg = PyResult.notImplementedError)
    ∧ (∀ (c : Capabilities) (pkg : String) (f : String → List String),
        c.upgradeArgs = some f → c.upgrade_cli pkg = PyResult.ok (f pkg))
    ∧ (∀ c : Capabilities, c.upgradeAllArgs = none →
        c.upgrade_all_cli = PyResult.notImplementedError)
    ∧ (∀ (c : Capabilities) (args : List String), c.upgradeAllArgs = some args →
        c.upgrade_all_cli = PyResult.ok args) := by
  refine ⟨?_, ?_, ?_, ?_, ?_, ?_⟩
  · intro c
    unfold Capabilities.sync
    cases c.syncArgs <;> rfl
  · intro c
    unfold Capabilities.cleanup
    cases c.cleanupArgs <;> rfl
  · intro c pkg h
    simp [Capabilities.upgrade_cli, h]
  · intro c pkg f h
    simp [Capabilities.upgrade_cli, h]
  · intro c h
    simp [Capabilities.upgrade_all_cli, h]
  · intro c args h
    simp [Capabilities.upgrade_all_cli, h]

/-- Witness for claim C8: a manager without the optional capabilities
no-ops on sync/cleanup but raises on the upgrade command builders, while
a fully capable manager returns argument lists. -/
theorem C8_witness :
    capsBare.sync = PyResult.ok () ∧ capsBare.cleanup = PyResult.ok () ∧
    capsBare.upgrade_cli "pkg" = PyResult.notImplementedError ∧
    capsBare.upgrade_all_cli = PyResult.notImplementedError ∧
    capsFull.upgrade_cli "pkg" = PyResult.ok ["upgrade", "pkg"] ∧
    capsFull.upgrade_all_cli = PyResult.ok ["upgrade"] :=
  ⟨C8_optional_capability_asymmetry.1 capsBare,
   C8_optional_capability_asymmetry.2.1 capsBare,
   C8_optional_capability_asymmetry.2.2.1 capsBare "pkg" rfl,
   C8_optional_capability_asymmetry.2.2.2.2.1 capsBare rfl,
   C8_optional_capability_asymmetry.2.2.2.1 capsFull "pkg"
     (fun pkg => ["upgrade", pkg]) rfl,
   C8_optional_capability_asymmetry.2.2.2.2.2 capsFull ["upgrade"] rfl⟩

end C8Claims

section C10Claims

open MPM

/-- Claim C10: the registry catalogue holds exactly 14 manager
instances, among them the virtual Linuxbrew variant (Linux-only, with a
boolean virtual flag), yet the managers report lists exactly the 13
non-virtual identifiers: a virtual manager never contributes a report
entry. -/
theorem C10_virtual_excluded_from_report :
    catalogue.length = 14
    ∧ (catalogue.filter (fun m => m.virtual)).map Manager.id = ["linuxbrew"]
    ∧ Linuxbrew.platforms = [OSPlat.linux]
    ∧ managersReportIds catalogue =
        ["apm", "apt", "brew", "cask", "composer", "flatpak", "gem", "mas",
         "npm", "opkg", "pip2", "pip3", "yarn"]
    ∧ (managersReportIds catalogue).length = 13
    ∧ (catalogue.filter (fun m => m.virtual)).all
        (fun m => !(managersReportIds catalogue).contains m.id) = true := by
  exact ⟨rfl, by decide, rfl, by decide, by decide, by decide⟩

end C10Claims
